import Mathlib

/-!
Verification of the Minesweeper AI (`minesweeper.py`) against its design
specification.  The Python classes `Minesweeper`, `Sentence` and
`MinesweeperAI` are shallowly embedded: Python `set`s of integer pairs
become `Finset (Int × Int)`, Python `int`s become `Int`, the mutable
knowledge list becomes an explicit `List Sentence`, and the unbounded
`while` loop of `add_knowledge` is given an explicit fuel parameter with
`Option` results (a `some` result means the Python loop finished and
produced exactly that state).
-/

set_option maxRecDepth 20000

/-- A board cell, a pair of integer coordinates as in the Python tuples. -/
abbrev Cell := Int × Int

/-- Embedding of the Python class `Sentence`: a set of board cells and a
count of the number of those cells which are mines. -/
structure Sentence where
  cells : Finset Cell
  count : Int
deriving DecidableEq

namespace Sentence

/-- Embedding of `Sentence.known_mines`: returns the cell set when
`len(self.cells) <= self.count`, else `None`. -/
def known_mines (s : Sentence) : Option (Finset Cell) :=
  if (s.cells.card : Int) ≤ s.count then some s.cells else none

/-- Embedding of `Sentence.known_safes`: returns the cell set when `self.count == 0`,
else `None`. -/
def known_safes (s : Sentence) : Option (Finset Cell) :=
  if s.count = 0 then some s.cells else none

/-- Embedding of `Sentence.mark_mine`: if the cell is in the sentence, decrement the
count and remove the cell. -/
def mark_mine (s : Sentence) (c : Cell) : Sentence :=
  if c ∈ s.cells then { cells := s.cells.erase c, count := s.count - 1 } else s

/-- Embedding of `Sentence.mark_safe`: if the cell is in the sentence, remove it and
leave the count unchanged. -/
def mark_safe (s : Sentence) (c : Cell) : Sentence :=
  if c ∈ s.cells then { cells := s.cells.erase c, count := s.count } else s

/-- The sentence invariant claimed by the specification. -/
def invariantOk (s : Sentence) : Prop :=
  0 ≤ s.count ∧ s.count ≤ (s.cells.card : Int)

instance (s : Sentence) : Decidable s.invariantOk := by
  unfold invariantOk; infer_instance

end Sentence

namespace Minesweeper

/-- Python list indexing `l[i]`: non-negative indices read directly,
indices in `[-len l, 0)` wrap around to the end, anything else raises an
`IndexError`, modelled by `none`. -/
def pyGet {α : Type} (l : List α) (i : Int) : Option α :=
  if 0 ≤ i then l.get? i.toNat
  else if 0 ≤ i + (l.length : Int) then l.get? (i + (l.length : Int)).toNat
  else none

/-- Embedding of `Minesweeper.is_mine`, that is `self.board[i][j]`.  A `none`
result models an uncaught `IndexError`. -/
def is_mine (board : List (List Bool)) (cell : Cell) : Option Bool :=
  (pyGet board cell.1).bind fun row => pyGet row cell.2

/-- Total in-bounds board lookup (used to phrase what `is_mine` returns on
wrapped coordinates). -/
def boardAt (board : List (List Bool)) (i j : Int) : Bool :=
  (((board.get? i.toNat).getD []).get? j.toNat).getD false

/-- The 3×3 window scanned by `nearby_mines` and by `add_knowledge`:
`range(cell[0]-1, cell[0]+2) × range(cell[1]-1, cell[1]+2)`. -/
def window (cell : Cell) : List Cell :=
  [cell.1 - 1, cell.1, cell.1 + 1].bind fun i =>
    [cell.2 - 1, cell.2, cell.2 + 1].map fun j => (i, j)

/-- Embedding of `Minesweeper.nearby_mines`: count the in-bounds cells of the window,
other than the cell itself, whose board entry is a mine. -/
def nearby_mines (height width : Int) (board : List (List Bool)) (cell : Cell) : Int :=
  (((window cell).filter fun p =>
    decide (p ≠ cell ∧ 0 ≤ p.1 ∧ p.1 < height ∧ 0 ≤ p.2 ∧ p.2 < width ∧
      boardAt board p.1 p.2 = true)).length : Int)

/-- The mine-placement loop of `Minesweeper.__init__`: starting from no
mines, while `len(self.mines) != mines` holds, draw the next random cell
from the stream `picks` and add it when it is not already a mine.
`placeMines target picks n` is the mine set after `n` iterations. -/
def placeMines (target : Int) (picks : Nat → Cell) : Nat → Finset Cell
  | 0 => ∅
  | n + 1 =>
    let m := placeMines target picks n
    if (m.card : Int) ≠ target then
      if picks n ∉ m then insert (picks n) m else m
    else m

end Minesweeper

/-- Embedding of the Python class `MinesweeperAI`: the sets of moves made,
known mines, known safes, and the knowledge list of sentences. -/
structure AIState where
  height : Int
  width : Int
  moves_made : Finset Cell
  mines : Finset Cell
  safes : Finset Cell
  knowledge : List Sentence
deriving DecidableEq

namespace AIState

/-- Embedding of `MinesweeperAI.__init__`. -/
def init (height width : Int) : AIState :=
  { height := height, width := width, moves_made := ∅, mines := ∅, safes := ∅,
    knowledge := [] }

/-- Embedding of `MinesweeperAI.mark_mine`: add the cell to `self.mines` and call
`Sentence.mark_mine` on every sentence in the knowledge list. -/
def mark_mine (s : AIState) (c : Cell) : AIState :=
  { s with mines := insert c s.mines,
           knowledge := s.knowledge.map fun sen => sen.mark_mine c }

/-- Embedding of `MinesweeperAI.mark_safe`: add the cell to `self.safes` and call
`Sentence.mark_safe` on every sentence in the knowledge list. -/
def mark_safe (s : AIState) (c : Cell) : AIState :=
  { s with safes := insert c s.safes,
           knowledge := s.knowledge.map fun sen => sen.mark_safe c }

/-- The `for cell in safes: self.mark_safe(cell)` loop of the resolution
pass, for one enumeration of the resolved set. -/
def markCellsSafe (s : AIState) (l : List Cell) : AIState :=
  l.foldl mark_safe s

/-- The `for cell in mines: self.mark_mine(cell)` loop of the resolution
pass, for one enumeration of the resolved set. -/
def markCellsMine (s : AIState) (l : List Cell) : AIState :=
  l.foldl mark_mine s

/-- Order-free form of `markCellsSafe`: marking every cell of a set safe.
`markCellsSafe_eq` below proves it equal to the per-cell loop for every
enumeration of the set, so the unspecified Python set iteration order is
irrelevant. -/
def markSafeSet (s : AIState) (C : Finset Cell) : AIState :=
  { s with safes := s.safes ∪ C,
           knowledge := s.knowledge.map fun sen => ⟨sen.cells \ C, sen.count⟩ }

/-- Order-free form of `markCellsMine`: marking every cell of a set as a
mine (each sentence loses the cells and its count drops by the number of
its cells that were marked). -/
def markMineSet (s : AIState) (C : Finset Cell) : AIState :=
  { s with mines := s.mines ∪ C,
           knowledge := s.knowledge.map fun sen =>
             ⟨sen.cells \ C, sen.count - ((sen.cells ∩ C).card : Int)⟩ }

/-- The resolution `for sentence in self.knowledge:` loop of
`add_knowledge`, from iteration index `i` on.  A resolved sentence is
marked (safe or mine), then removed with `list.remove`, which deletes the
first structurally equal element and makes the iteration skip one
position; the index bookkeeping reproduces that.  The Boolean records
whether `cycles` was reset (some sentence resolved). -/
def resolutionPass : Nat → AIState → Nat → Bool → Option (AIState × Bool)
  | 0, _, _, _ => none
  | fuel + 1, s, i, changed =>
    match s.knowledge.get? i with
    | none => some (s, changed)
    | some sen =>
      match sen.known_safes with
      | some cs =>
        let s1 := s.markSafeSet cs
        match s1.knowledge.get? i with
        | none => none
        | some sen1 =>
          resolutionPass fuel { s1 with knowledge := s1.knowledge.erase sen1 } (i + 1) true
      | none =>
        match sen.known_mines with
        | some cm =>
          let s1 := s.markMineSet cm
          match s1.knowledge.get? i with
          | none => none
          | some sen1 =>
            resolutionPass fuel { s1 with knowledge := s1.knowledge.erase sen1 } (i + 1) true
        | none => resolutionPass fuel s (i + 1) changed

/-- The body of the nested inference loop of `add_knowledge` for one
ordered pair `(sentenceA, sentenceB) = (A, B)` against the current
knowledge list `K`: derive `A.cells - B.cells` or `B.cells - A.cells`
with the count difference, appending only a strictly positive count that
is not already present. -/
def inferStep (K : List Sentence) (A B : Sentence) : List Sentence :=
  if A = B then K
  else if A.cells = ∅ ∨ B.cells = ∅ then K
  else
    let AB := A.cells \ B.cells
    let BA := B.cells \ A.cells
    let K1 :=
      if BA = ∅ ∧ AB ≠ ∅ ∧ 0 < A.count - B.count ∧
          (⟨AB, A.count - B.count⟩ : Sentence) ∉ K
      then K ++ [⟨AB, A.count - B.count⟩] else K
    if AB = ∅ ∧ BA ≠ ∅ ∧ 0 < B.count - A.count ∧
        (⟨BA, B.count - A.count⟩ : Sentence) ∉ K1
    then K1 ++ [⟨BA, B.count - A.count⟩] else K1

/-- The inference `for sentenceA in self.knowledge: for sentenceB in
self.knowledge:` loop: both Python iterators run over the live list, so
sentences appended during the pass are also visited.  `a` and `b` are the
two iteration indices; the Boolean records whether anything was appended. -/
def inferencePass : Nat → List Sentence → Nat → Nat → Bool → Option (List Sentence × Bool)
  | 0, _, _, _, _ => none
  | fuel + 1, K, a, b, changed =>
    match K.get? a with
    | none => some (K, changed)
    | some A =>
      match K.get? b with
      | none => inferencePass fuel K (a + 1) 0 changed
      | some B =>
        let K1 := inferStep K A B
        inferencePass fuel K1 a (b + 1) (changed || decide (K.length < K1.length))

/-- The `while cycles > 0:` fixpoint loop of `add_knowledge`: one
resolution pass followed by one inference pass, repeated until a full
round changes nothing. -/
def fixpointLoop : Nat → AIState → Option AIState
  | 0, _ => none
  | fuel + 1, s =>
    match resolutionPass (s.knowledge.length + 2) s 0 false with
    | none => none
    | some (s1, ch1) =>
      match inferencePass (fuel + 1) s1.knowledge 0 0 ch1 with
      | none => none
      | some (K2, ch2) =>
        let s2 := { s1 with knowledge := K2 }
        if ch2 then fixpointLoop fuel s2 else some s2

/-- Step 3a of `add_knowledge`: the in-bounds neighbours of `cell`, other
than `cell` itself, lying in none of `moves_made`, `mines`, `safes`. -/
def newCells (s : AIState) (cell : Cell) : Finset Cell :=
  ((Minesweeper.window cell).filter fun p =>
    decide (¬(p.1 < 0 ∨ s.height - 1 < p.1 ∨ p.2 < 0 ∨ s.width - 1 < p.2) ∧
      p ≠ cell ∧ p ∉ s.moves_made ∧ p ∉ s.mines ∧ p ∉ s.safes)).toFinset

/-- Steps 1–3 of `add_knowledge`: record the move, mark the cell safe, and
when the candidate set is non-empty append `Sentence(newCells, count)` —
with the raw reported `count`, exactly as the source does. -/
def addKnowledgePre (s : AIState) (cell : Cell) (count : Int) : AIState :=
  let s1 := { s with moves_made := insert cell s.moves_made }
  let s2 := s1.mark_safe cell
  let nc := s2.newCells cell
  if nc.card ≠ 0 then { s2 with knowledge := s2.knowledge ++ [⟨nc, count⟩] } else s2

/-- Embedding of `MinesweeperAI.add_knowledge`, with explicit fuel for its fixpoint
loop; `some` means the Python call returns, with exactly this state. -/
def addKnowledge (fuel : Nat) (s : AIState) (cell : Cell) (count : Int) : Option AIState :=
  fixpointLoop fuel (s.addKnowledgePre cell count)

/-- A sequence of `add_knowledge` calls. -/
def runSeq (fuel : Nat) (s : AIState) : List (Cell × Int) → Option AIState
  | [] => some s
  | (c, n) :: rest =>
    match addKnowledge fuel s c n with
    | none => none
    | some s' => runSeq fuel s' rest

end AIState

/-- C5 (counterexample): the sentence `{(0,0)} = 2` is in neither special
state of the claim — its count is non-zero and differs from `|cells|` — so
the claim demands that both queries return `None`; yet `known_mines`
returns the cell set, because the source tests `len(self.cells) <=
self.count` rather than equality. -/
theorem claim_C5_cex :
    ¬ ((⟨{((0:Int),(0:Int))}, 2⟩ : Sentence).count = 0) ∧
    ¬ ((⟨{((0:Int),(0:Int))}, 2⟩ : Sentence).count =
        (((⟨{((0:Int),(0:Int))}, 2⟩ : Sentence).cells.card : Int)) ∧
        (⟨{((0:Int),(0:Int))}, 2⟩ : Sentence).cells.Nonempty) ∧
    (⟨{((0:Int),(0:Int))}, 2⟩ : Sentence).known_mines ≠ none := by
  decide

/-- C5 (amended): `known_safes` returns the cell set exactly when
`count = 0`, and `known_mines` returns the cell set exactly when
`|cells| ≤ count` — also for `count` strictly above `|cells|` and for the
empty sentence — and each returns `None` otherwise. -/
theorem claim_C5_amended (s : Sentence) :
    (s.count = 0 → s.known_safes = some s.cells) ∧
    ((s.cells.card : Int) ≤ s.count → s.known_mines = some s.cells) ∧
    (s.count ≠ 0 → s.known_safes = none) ∧
    (s.count < (s.cells.card : Int) → s.known_mines = none) := by
  unfold Sentence.known_safes Sentence.known_mines
  refine ⟨fun h => by simp [h], fun h => by simp [h], fun h => by simp [h],
    fun h => by rw [if_neg (by omega)]⟩

/-- Closed instance of `claim_C5_amended` at concrete sentences. -/
theorem claim_C5_amended_witness :
    Sentence.known_safes ⟨∅, 0⟩ = some ∅ ∧
    Sentence.known_mines ⟨{((0:Int),(0:Int))}, 2⟩ = some {((0:Int),(0:Int))} ∧
    Sentence.known_safes ⟨{((0:Int),(0:Int))}, 2⟩ = none ∧
    Sentence.known_mines ⟨{((0:Int),(0:Int))}, 0⟩ = none :=
  ⟨(claim_C5_amended ⟨∅, 0⟩).1 (by decide),
   (claim_C5_amended ⟨{((0:Int),(0:Int))}, 2⟩).2.1 (by decide),
   (claim_C5_amended ⟨{((0:Int),(0:Int))}, 2⟩).2.2.1 (by decide),
   (claim_C5_amended ⟨{((0:Int),(0:Int))}, 0⟩).2.2.2 (by decide)⟩

/-- C9: `known_mines` returns the (copied) full cell set for every state
with `|cells| ≤ count` — including counts strictly above `|cells|` and the
empty sentence with count 0 — and returns `None` exactly when
`count < |cells|`. -/
theorem claim_C9_known_mines (s : Sentence) :
    ((s.cells.card : Int) ≤ s.count → s.known_mines = some s.cells) ∧
    (s.known_mines = none ↔ s.count < (s.cells.card : Int)) := by
  unfold Sentence.known_mines
  constructor
  · intro h; simp [h]
  · constructor
    · intro h
      by_contra hlt
      rw [if_pos (by omega)] at h
      exact Option.noConfusion h
    · intro h; rw [if_neg (by omega)]

/-- Closed instance of `claim_C9_known_mines`: a count strictly above
`|cells|`, reached by `mark_safe` from a `count = |cells|` sentence, and
the empty sentence with count 0. -/
theorem claim_C9_witness :
    Sentence.known_mines
      (Sentence.mark_safe ⟨{((0:Int),(0:Int)), ((0:Int),(1:Int))}, 2⟩ ((0:Int),(0:Int)))
      = some {((0:Int),(1:Int))} ∧
    Sentence.known_mines ⟨∅, 0⟩ = some ∅ ∧
    Sentence.known_mines ⟨{((0:Int),(0:Int))}, 0⟩ = none :=
  ⟨by
    have h := (claim_C9_known_mines
      (Sentence.mark_safe ⟨{((0:Int),(0:Int)), ((0:Int),(1:Int))}, 2⟩ ((0:Int),(0:Int)))).1
      (by decide)
    rw [h]; decide,
   (claim_C9_known_mines ⟨∅, 0⟩).1 (by decide),
   (claim_C9_known_mines ⟨{((0:Int),(0:Int))}, 0⟩).2.mpr (by decide)⟩

/-- C3 (counterexample): both reduction operations can break the invariant
`0 ≤ count ≤ |cells|`.  `mark_mine` on `{(0,0)} = 0` (which satisfies the
invariant) yields count `-1`; `mark_safe` on `{(0,0)} = 1` (which
satisfies the invariant) yields an empty cell set with count 1. -/
theorem claim_C3_cex :
    Sentence.invariantOk ⟨{((0:Int),(0:Int))}, 0⟩ ∧
    ¬ Sentence.invariantOk
        (Sentence.mark_mine ⟨{((0:Int),(0:Int))}, 0⟩ ((0:Int),(0:Int))) ∧
    Sentence.invariantOk ⟨{((0:Int),(0:Int))}, 1⟩ ∧
    ¬ Sentence.invariantOk
        (Sentence.mark_safe ⟨{((0:Int),(0:Int))}, 1⟩ ((0:Int),(0:Int))) := by
  decide

/-- C3 (amended): for a sentence satisfying `0 ≤ count ≤ |cells|`, the
invariant still holds after `mark_mine cell` provided the cell is absent
or `1 ≤ count`, and after `mark_safe cell` provided the cell is absent or
`count < |cells|`. -/
theorem claim_C3_amended (s : Sentence) (c : Cell) (h : s.invariantOk) :
    ((c ∉ s.cells ∨ 1 ≤ s.count) → (s.mark_mine c).invariantOk) ∧
    ((c ∉ s.cells ∨ s.count < (s.cells.card : Int)) → (s.mark_safe c).invariantOk) := by
  obtain ⟨h0, h1⟩ := h
  constructor
  · rintro (hc | hc)
    · simpa [Sentence.mark_mine, hc] using ⟨h0, h1⟩
    · by_cases hm : c ∈ s.cells
      · have hcard := Finset.card_erase_of_mem hm
        have hpos : 1 ≤ s.cells.card := Finset.card_pos.mpr ⟨c, hm⟩
        simp only [Sentence.mark_mine, if_pos hm, Sentence.invariantOk, hcard]
        omega
      · simpa [Sentence.mark_mine, hm] using ⟨h0, h1⟩
  · rintro (hc | hc)
    · simpa [Sentence.mark_safe, hc] using ⟨h0, h1⟩
    · by_cases hm : c ∈ s.cells
      · have hcard := Finset.card_erase_of_mem hm
        have hpos : 1 ≤ s.cells.card := Finset.card_pos.mpr ⟨c, hm⟩
        simp only [Sentence.mark_safe, if_pos hm, Sentence.invariantOk, hcard]
        omega
      · simpa [Sentence.mark_safe, hm] using ⟨h0, h1⟩

/-- Closed instance of `claim_C3_amended`. -/
theorem claim_C3_amended_witness :
    (Sentence.mark_mine ⟨{((0:Int),(0:Int))}, 1⟩ ((0:Int),(0:Int))).invariantOk ∧
    (Sentence.mark_safe ⟨{((0:Int),(0:Int))}, 0⟩ ((0:Int),(0:Int))).invariantOk :=
  ⟨(claim_C3_amended ⟨{((0:Int),(0:Int))}, 1⟩ ((0:Int),(0:Int)) (by decide)).1
      (Or.inr (by decide)),
   (claim_C3_amended ⟨{((0:Int),(0:Int))}, 0⟩ ((0:Int),(0:Int)) (by decide)).2
      (Or.inr (by decide))⟩

/-- A second `Sentence.mark_safe` with the same cell is a no-op: the first
call removed the cell. -/
theorem Sentence.mark_safe_mark_safe (s : Sentence) (c : Cell) :
    (s.mark_safe c).mark_safe c = s.mark_safe c := by
  by_cases h : c ∈ s.cells
  · simp [Sentence.mark_safe, h, Finset.not_mem_erase]
  · simp [Sentence.mark_safe, h]

/-- A second `Sentence.mark_mine` with the same cell is a no-op. -/
theorem Sentence.mark_mine_mark_mine (s : Sentence) (c : Cell) :
    (s.mark_mine c).mark_mine c = s.mark_mine c := by
  by_cases h : c ∈ s.cells
  · simp [Sentence.mark_mine, h, Finset.not_mem_erase]
  · simp [Sentence.mark_mine, h]

/-- C8: a second `MinesweeperAI.mark_safe` (resp. `mark_mine`) call with
the same cell leaves the whole AI state — `safes`, `mines`, and the cells
and count of every sentence in `knowledge` — exactly as after the first
call. -/
theorem claim_C8_idempotent (s : AIState) (c : Cell) :
    (s.mark_safe c).mark_safe c = s.mark_safe c ∧
    (s.mark_mine c).mark_mine c = s.mark_mine c := by
  constructor
  · simp [AIState.mark_safe, List.map_map, Function.comp_def,
      Sentence.mark_safe_mark_safe]
  · simp [AIState.mark_mine, List.map_map, Function.comp_def,
      Sentence.mark_mine_mark_mine]

/-- C2: for every ordered pair `(A, B)` of non-empty sentences with
`A.cells` a proper subset of `B.cells`, the inference body of
`add_knowledge` appends the sentence `B.cells - A.cells` with count
`B.count - A.count` exactly when that count is strictly positive and no
structurally equal sentence is already in the knowledge list; and on the
specification's example `A = {(0,0),(0,1)} = 1`,
`B = {(0,0),(0,1),(0,2)} = 2` the inference pass derives `{(0,2)} = 1`. -/
theorem claim_C2_inference :
    (∀ (K : List Sentence) (A B : Sentence), A.cells ⊂ B.cells → A.cells.Nonempty →
      AIState.inferStep K A B =
        (if 0 < B.count - A.count ∧
            (⟨B.cells \ A.cells, B.count - A.count⟩ : Sentence) ∉ K
         then K ++ [⟨B.cells \ A.cells, B.count - A.count⟩] else K)) ∧
    AIState.inferencePass 99
        [⟨{((0:Int),(0:Int)), ((0:Int),(1:Int))}, 1⟩,
         ⟨{((0:Int),(0:Int)), ((0:Int),(1:Int)), ((0:Int),(2:Int))}, 2⟩] 0 0 false =
      some ([⟨{((0:Int),(0:Int)), ((0:Int),(1:Int))}, 1⟩,
             ⟨{((0:Int),(0:Int)), ((0:Int),(1:Int)), ((0:Int),(2:Int))}, 2⟩,
             ⟨{((0:Int),(2:Int))}, 1⟩], true) := by
  constructor
  · intro K A B hAB hne
    have h1 : A ≠ B := by
      intro h; rw [h] at hAB; exact ssubset_irrefl _ hAB
    have h2 : ¬(A.cells = ∅ ∨ B.cells = ∅) := by
      push_neg
      exact ⟨Finset.nonempty_iff_ne_empty.mp hne,
        Finset.nonempty_iff_ne_empty.mp (hne.mono hAB.subset)⟩
    have h4 : A.cells \ B.cells = ∅ :=
      Finset.sdiff_eq_empty_iff_subset.mpr hAB.subset
    have h5 : B.cells \ A.cells ≠ ∅ := by
      intro h
      exact hAB.ne (Finset.Subset.antisymm hAB.subset
        (Finset.sdiff_eq_empty_iff_subset.mp h))
    have hc1 : ¬(B.cells \ A.cells = ∅ ∧ A.cells \ B.cells ≠ ∅ ∧
        0 < A.count - B.count ∧
        (⟨A.cells \ B.cells, A.count - B.count⟩ : Sentence) ∉ K) := by
      rintro ⟨hba, -, -, -⟩; exact h5 hba
    have hc2 : (A.cells \ B.cells = ∅ ∧ B.cells \ A.cells ≠ ∅ ∧
        0 < B.count - A.count ∧
        (⟨B.cells \ A.cells, B.count - A.count⟩ : Sentence) ∉ K) ↔
        (0 < B.count - A.count ∧
        (⟨B.cells \ A.cells, B.count - A.count⟩ : Sentence) ∉ K) := by
      constructor
      · rintro ⟨-, -, hx, hy⟩; exact ⟨hx, hy⟩
      · rintro ⟨hx, hy⟩; exact ⟨h4, h5, hx, hy⟩
    simp only [AIState.inferStep]
    rw [if_neg h1, if_neg h2, if_neg hc1]
    exact if_congr hc2 rfl rfl
  · decide

/-- Closed instance of `claim_C2_inference` on the specification's example
pair. -/
theorem claim_C2_witness :
    AIState.inferStep [] ⟨{((0:Int),(0:Int)), ((0:Int),(1:Int))}, 1⟩
      ⟨{((0:Int),(0:Int)), ((0:Int),(1:Int)), ((0:Int),(2:Int))}, 2⟩ =
      [⟨{((0:Int),(2:Int))}, 1⟩] := by
  rw [claim_C2_inference.1 [] _ _ (by decide) (by decide)]
  decide

/-- The 3×3 demonstration board: mines at `(0,0)` and `(0,2)`. -/
def demoBoard : List (List Bool) :=
  [[true, false, true], [false, false, false], [false, false, false]]

/-- A game against `demoBoard`: six probes of safe cells, each paired with
the count `Minesweeper.nearby_mines` reports for it. -/
def demoCalls : List (Cell × Int) :=
  [(((2:Int),(0:Int)), 0), (((1:Int),(0:Int)), 1), (((1:Int),(1:Int)), 2),
   (((2:Int),(1:Int)), 0), (((1:Int),(2:Int)), 1), (((0:Int),(1:Int)), 2)]

/-- The AI state after the first four calls of `demoCalls`. -/
def demoMid : Option AIState :=
  AIState.runSeq 20 (AIState.init 3 3) (demoCalls.take 4)

/-- The AI state after all six calls of `demoCalls`. -/
def demoFinal : Option AIState :=
  AIState.runSeq 20 (AIState.init 3 3) demoCalls

/-- C1 (failing run): every count in `demoCalls` is the board-reported
total.  After the first four calls the AI knows the mine `(0,2)`, which is
an in-bounds neighbour of `(1,2)`; the fifth call `add_knowledge((1,2), 1)`
then appends the sentence `{(0,1)} = 1` over the unknown neighbours with
the raw reported count 1, although one of the in-bounds neighbours of
`(1,2)` is already in `self.mines`, so the adjusted count demanded by the
claim would be `1 - 1 = 0`.  (The sentence `{(0,1)} = 1` is false for the
board: `(0,1)` is not a mine.) -/
theorem claim_C1_raw_count :
    (demoCalls.all fun p => Minesweeper.nearby_mines 3 3 demoBoard p.1 == p.2) = true ∧
    ((demoMid.map fun s4 =>
        decide (s4.mines = {((0:Int),(2:Int))}) &&
        decide (((Minesweeper.window ((1:Int),(2:Int))).filter fun p =>
          decide (p ≠ ((1:Int),(2:Int)) ∧ 0 ≤ p.1 ∧ p.1 < 3 ∧ 0 ≤ p.2 ∧ p.2 < 3 ∧
            p ∈ s4.mines)).length = 1) &&
        decide ((s4.addKnowledgePre ((1:Int),(2:Int)) 1).knowledge =
          s4.knowledge ++ [⟨{((0:Int),(1:Int))}, 1⟩])).getD false) = true ∧
    (1 : Int) - 1 ≠ 1 := by
  refine ⟨by decide, by decide, by decide⟩

/-- C4 (failing run): all six calls of `demoCalls` carry board-valid
counts and each probed cell is safe on `demoBoard`, yet after the sixth
call the cell `(0,1)` is in `self.mines` and in `self.safes` at once: the
raw-count sentence of the fifth call resolved `(0,1)` to a mine, and the
sixth call `add_knowledge((0,1), 2)` then marked the same cell safe. -/
theorem claim_C4_violation :
    (demoCalls.all fun p => Minesweeper.nearby_mines 3 3 demoBoard p.1 == p.2) = true ∧
    (demoCalls.all fun p => Minesweeper.boardAt demoBoard p.1.1 p.1.2 == false) = true ∧
    ((demoFinal.map fun s =>
        decide (((0:Int),(1:Int)) ∈ s.mines) &&
        decide (((0:Int),(1:Int)) ∈ s.safes)).getD false) = true := by
  refine ⟨by decide, by decide, by decide⟩

/-- C7 (divergence): with `height = width = 1` and a requested mine count
of 2 (which exceeds `height * width = 1`), the placement loop of
`Minesweeper.__init__` never meets its exit condition
`len(self.mines) == mines`: whatever in-range cells the random stream
yields, after any number of iterations the loop test still holds, so the
constructor loops forever instead of reporting an error to the caller. -/
theorem claim_C7_placement_diverges (picks : Nat → Cell)
    (hp : ∀ n, 0 ≤ (picks n).1 ∧ (picks n).1 < 1 ∧ 0 ≤ (picks n).2 ∧ (picks n).2 < 1) :
    ∀ n, ((Minesweeper.placeMines 2 picks n).card : Int) ≠ 2 := by
  have hsub : ∀ n, Minesweeper.placeMines 2 picks n ⊆ {((0:Int),(0:Int))} := by
    intro n
    induction n with
    | zero => simp [Minesweeper.placeMines]
    | succ k ih =>
      have hpk : picks k = ((0:Int),(0:Int)) := by
        obtain ⟨a, b, c, d⟩ := hp k
        exact Prod.ext (by omega) (by omega)
      simp only [Minesweeper.placeMines]
      split_ifs with h1 h2 <;>
        first
          | (rw [hpk]; exact Finset.insert_subset (Finset.mem_singleton_self _) ih)
          | exact ih
  intro n
  have hle := Finset.card_le_card (hsub n)
  simp only [Finset.card_singleton] at hle
  omega

/-- Closed instance of `claim_C7_placement_diverges`: after five
iterations with the constant stream `(0,0)` the loop test still holds. -/
theorem claim_C7_witness :
    ((Minesweeper.placeMines 2 (fun _ => ((0:Int),(0:Int))) 5).card : Int) ≠ 2 :=
  claim_C7_placement_diverges (fun _ => ((0:Int),(0:Int)))
    (fun _ => by exact ⟨le_refl 0, by norm_num, le_refl 0, by norm_num⟩) 5

/-- Applying `pyGet` to an index inside the signed range `[-len, len)` reads the
entry at the wrapped (Euclidean-mod) position. -/
theorem Minesweeper.pyGet_inRange {α : Type} (l : List α) (i : Int)
    (h1 : -(l.length : Int) ≤ i) (h2 : i < (l.length : Int)) :
    Minesweeper.pyGet l i = l.get? (i % (l.length : Int)).toNat := by
  unfold Minesweeper.pyGet
  by_cases h0 : 0 ≤ i
  · rw [if_pos h0, Int.emod_eq_of_lt h0 h2]
  · rw [if_neg h0, if_pos (by omega)]
    have hmod : i % (l.length : Int) = i + (l.length : Int) := by
      have hx := Int.add_mul_emod_self_left i (l.length : Int) 1
      rw [mul_one] at hx
      rw [← hx]
      exact Int.emod_eq_of_lt (by omega) (by omega)
    rw [hmod]

/-- C10: on a well-formed `height × width` board grid, `is_mine((i, j))`
with a negative coordinate inside its signed range (`-height ≤ i < 0` or
`-width ≤ j < 0`, the other coordinate in range as well) does not fail:
Python's negative indexing makes it return the mine indicator of the
wrapped cell `(i mod height, j mod width)`; by contrast a coordinate at or
beyond `height` (resp. `width`) raises an `IndexError`. -/
theorem claim_C10_negative_indexing (board : List (List Bool)) (h w : Int)
    (hb : (board.length : Int) = h) (hr : ∀ row ∈ board, (row.length : Int) = w) :
    (∀ i j : Int, ((-h ≤ i ∧ i < 0) ∨ (-w ≤ j ∧ j < 0)) →
      -h ≤ i → i < h → -w ≤ j → j < w →
      Minesweeper.is_mine board (i, j) =
        some (Minesweeper.boardAt board (i % h) (j % w))) ∧
    (∀ i j : Int, h ≤ i → Minesweeper.is_mine board (i, j) = none) ∧
    (∀ i j : Int, -h ≤ i → i < h → w ≤ j → Minesweeper.is_mine board (i, j) = none) := by
  subst hb
  refine ⟨?_, ?_, ?_⟩
  · intro i j _ hi1 hi2 hj1 hj2
    have hh : (0:Int) < (board.length : Int) := by omega
    have hmod1 : 0 ≤ i % (board.length : Int) := Int.emod_nonneg i (by omega)
    have hmod2 : i % (board.length : Int) < (board.length : Int) :=
      Int.emod_lt_of_pos i hh
    have hlt : (i % (board.length : Int)).toNat < board.length := by omega
    unfold Minesweeper.is_mine
    rw [Minesweeper.pyGet_inRange board i hi1 hi2, List.get?_eq_get hlt]
    have hrw : ((board.get ⟨(i % (board.length : Int)).toNat, hlt⟩).length : Int) = w :=
      hr _ (List.get_mem board _ _)
    have hw : (0:Int) < w := by omega
    have hmod3 : 0 ≤ j % w := Int.emod_nonneg j (by omega)
    have hmod4 : j % w < w := Int.emod_lt_of_pos j hw
    have hltj : (j % w).toNat < (board.get ⟨(i % (board.length : Int)).toNat, hlt⟩).length := by
      omega
    have hjget := Minesweeper.pyGet_inRange
      (board.get ⟨(i % (board.length : Int)).toNat, hlt⟩) j (by omega) (by omega)
    rw [hrw] at hjget
    simp only [Option.some_bind, hjget, List.get?_eq_get hltj]
    unfold Minesweeper.boardAt
    rw [List.get?_eq_get hlt]
    simp only [Option.getD_some]
    rw [List.get?_eq_get hltj]
    rfl
  · intro i j hi
    have hlen : (0:Int) ≤ (board.length : Int) := by positivity
    unfold Minesweeper.is_mine Minesweeper.pyGet
    rw [if_pos (by omega : (0:Int) ≤ i)]
    rw [List.get?_eq_none.mpr (by omega), Option.none_bind]
  · intro i j hi1 hi2 hj
    have hh : (0:Int) < (board.length : Int) := by omega
    have hmod1 : 0 ≤ i % (board.length : Int) := Int.emod_nonneg i (by omega)
    have hmod2 : i % (board.length : Int) < (board.length : Int) :=
      Int.emod_lt_of_pos i hh
    have hlt : (i % (board.length : Int)).toNat < board.length := by omega
    unfold Minesweeper.is_mine
    rw [Minesweeper.pyGet_inRange board i hi1 hi2, List.get?_eq_get hlt]
    have hrw : ((board.get ⟨(i % (board.length : Int)).toNat, hlt⟩).length : Int) = w :=
      hr _ (List.get_mem board _ _)
    have hw : (0:Int) ≤ w := by rw [← hrw]; positivity
    simp only [Option.some_bind]
    unfold Minesweeper.pyGet
    rw [if_pos (by omega : (0:Int) ≤ j)]
    rw [List.get?_eq_none.mpr (by omega)]

/-- Closed instance of `claim_C10_negative_indexing` on the 2×1 board
`[[true], [false]]`: `is_mine((-1, 0))` wraps to row 1 and returns
`some false`, while `is_mine((2, 0))` and `is_mine((0, 1))` fail. -/
theorem claim_C10_witness :
    Minesweeper.is_mine [[true], [false]] ((-1 : Int), (0 : Int)) = some false ∧
    Minesweeper.is_mine [[true], [false]] ((2 : Int), (0 : Int)) = none ∧
    Minesweeper.is_mine [[true], [false]] ((0 : Int), (1 : Int)) = none := by
  have hmain := claim_C10_negative_indexing [[true], [false]] 2 1 (by norm_num)
    (by intro row hrow; fin_cases hrow <;> rfl)
  refine ⟨?_, ?_, ?_⟩
  · have hx := hmain.1 (-1) 0 (Or.inl (by norm_num)) (by norm_num) (by norm_num)
      (by norm_num) (by norm_num)
    rw [hx]; decide
  · exact hmain.2.1 2 0 (by norm_num)
  · exact hmain.2.2 0 1 (by norm_num) (by norm_num) (by norm_num)


/-- Note that `Sentence.mark_safe` always just erases the cell (erasing an absent
cell is a no-op) and keeps the count. -/
theorem Sentence.mark_safe_eq (s : Sentence) (c : Cell) :
    s.mark_safe c = ⟨s.cells.erase c, s.count⟩ := by
  unfold Sentence.mark_safe
  split_ifs with h
  · rfl
  · rw [Finset.erase_eq_of_not_mem h]

/-- Note that `Sentence.mark_mine` erases the cell and decrements the count exactly
when the cell was present. -/
theorem Sentence.mark_mine_eq (s : Sentence) (c : Cell) :
    s.mark_mine c = ⟨s.cells.erase c, s.count - if c ∈ s.cells then 1 else 0⟩ := by
  unfold Sentence.mark_mine
  split_ifs with h
  · rfl
  · rw [Finset.erase_eq_of_not_mem h]
    simp

/-- Erasing a cell and then subtracting a set is subtracting the enlarged
set. -/
theorem erase_sdiff_insert (A T : Finset Cell) (c : Cell) :
    A.erase c \ T = A \ insert c T := by
  ext x
  simp only [Finset.mem_sdiff, Finset.mem_erase, Finset.mem_insert]
  tauto

/-- Cardinality bookkeeping for intersecting with an enlarged set. -/
theorem card_inter_insert (A T : Finset Cell) (c : Cell) :
    ((A ∩ insert c T).card : Int) =
      ((A.erase c ∩ T).card : Int) + if c ∈ A then 1 else 0 := by
  split_ifs with h
  · have hins : A ∩ insert c T = insert c (A.erase c ∩ T) := by
      ext x
      simp only [Finset.mem_inter, Finset.mem_insert, Finset.mem_erase]
      constructor
      · rintro ⟨hA, hc | hT⟩
        · exact Or.inl hc
        · by_cases hx : x = c
          · exact Or.inl hx
          · exact Or.inr ⟨⟨hx, hA⟩, hT⟩
      · rintro (rfl | ⟨⟨hx, hA⟩, hT⟩)
        · exact ⟨h, Or.inl rfl⟩
        · exact ⟨hA, Or.inr hT⟩
    rw [hins, Finset.card_insert_of_not_mem (by simp)]
    push_cast
    ring
  · rw [Finset.erase_eq_of_not_mem h]
    have hsame : A ∩ insert c T = A ∩ T := by
      ext x
      simp only [Finset.mem_inter, Finset.mem_insert]
      constructor
      · rintro ⟨hA, rfl | hT⟩
        · exact absurd hA h
        · exact ⟨hA, hT⟩
      · rintro ⟨hA, hT⟩
        exact ⟨hA, Or.inr hT⟩
    rw [hsame]
    simp

/-- The per-cell `for cell in safes: self.mark_safe(cell)` loop equals the
order-free `markSafeSet` on the set of listed cells, for every enumeration
order, so the unspecified Python set iteration order is irrelevant. -/
theorem AIState.markCellsSafe_eq (l : List Cell) : ∀ s : AIState,
    s.markCellsSafe l = s.markSafeSet l.toFinset := by
  induction l with
  | nil =>
    intro s
    simp [AIState.markCellsSafe, AIState.markSafeSet]
  | cons c l ih =>
    intro s
    have hstep : AIState.markCellsSafe s (c :: l) =
        AIState.markCellsSafe (s.mark_safe c) l := rfl
    rw [hstep, ih]
    unfold AIState.markSafeSet AIState.mark_safe
    simp only [List.toFinset_cons, List.map_map, AIState.mk.injEq, true_and]
    refine ⟨by rw [Finset.insert_union, Finset.union_insert], ?_⟩
    apply List.map_congr_left
    intro sen _
    simp only [Function.comp_apply, Sentence.mark_safe_eq, Sentence.mk.injEq]
    exact ⟨erase_sdiff_insert _ _ _, trivial⟩

/-- The per-cell `for cell in mines: self.mark_mine(cell)` loop equals the
order-free `markMineSet` on the set of listed cells, for every enumeration
order. -/
theorem AIState.markCellsMine_eq (l : List Cell) : ∀ s : AIState,
    s.markCellsMine l = s.markMineSet l.toFinset := by
  induction l with
  | nil =>
    intro s
    simp [AIState.markCellsMine, AIState.markMineSet]
  | cons c l ih =>
    intro s
    have hstep : AIState.markCellsMine s (c :: l) =
        AIState.markCellsMine (s.mark_mine c) l := rfl
    rw [hstep, ih]
    unfold AIState.markMineSet AIState.mark_mine
    simp only [List.toFinset_cons, List.map_map, AIState.mk.injEq, true_and]
    refine ⟨by rw [Finset.insert_union, Finset.union_insert], ?_⟩
    apply List.map_congr_left
    intro sen _
    simp only [Function.comp_apply, Sentence.mark_mine_eq, Sentence.mk.injEq]
    refine ⟨erase_sdiff_insert _ _ _, ?_⟩
    rw [card_inter_insert]
    ring

/-- Structure eta for sentences. -/
theorem Sentence.eta_mk (sen : Sentence) : (⟨sen.cells, sen.count⟩ : Sentence) = sen := rfl

/-- Marking the empty set safe changes nothing. -/
theorem AIState.markSafeSet_empty (s : AIState) : s.markSafeSet ∅ = s := by
  simp [AIState.markSafeSet, Sentence.eta_mk]

/-- Marking the empty set as mines changes nothing. -/
theorem AIState.markMineSet_empty (s : AIState) : s.markMineSet ∅ = s := by
  simp [AIState.markMineSet, Sentence.eta_mk]

namespace KB

/-- No sentence of the knowledge list mentions a marked cell. -/
def GoodK (marked : Finset Cell) (K : List Sentence) : Prop :=
  ∀ sen ∈ K, ∀ c ∈ sen.cells, c ∉ marked

/-- The cells of every sentence are disjoint from the known mines and
safes.  This holds at every point of an `add_knowledge` run: marking a
cell removes it from every sentence, and new sentences are built only
from unmarked cells. -/
def Good (s : AIState) : Prop := GoodK (s.mines ∪ s.safes) s.knowledge

/-- Bounding data for the counts and cells of a knowledge list: a finite
cell universe and three integer constants. -/
structure Consts where
  U : Finset Cell
  K0 : Int
  K1 : Int
  low : Int

/-- Side conditions making `Consts` usable. -/
def Consts.ok (cst : Consts) : Prop :=
  cst.low ≤ 1 ∧ 0 ≤ cst.K1 ∧ (cst.U.card : Int) - cst.low ≤ cst.K1

/-- The count/cell bounds: every sentence lives inside the universe `U`,
its count is at most `K0 + K1·(|U| - |cells|)`, and at least
`low - |mines ∩ U|`. -/
def BInvK (cst : Consts) (mines : Finset Cell) (K : List Sentence) : Prop :=
  ∀ sen ∈ K, sen.cells ⊆ cst.U ∧
    sen.count ≤ cst.K0 + cst.K1 * ((cst.U.card : Int) - (sen.cells.card : Int)) ∧
    cst.low - ((mines ∩ cst.U).card : Int) ≤ sen.count

/-- Specialisation of `BInvK` to the state's own mines and knowledge. -/
def BInv (cst : Consts) (s : AIState) : Prop := BInvK cst s.mines s.knowledge

/-- The finite universe of sentences the bounds permit. -/
def sentUniverse (cst : Consts) : Finset Sentence :=
  (cst.U.powerset ×ˢ
    Finset.Icc (cst.low - (cst.U.card : Int)) (cst.K0 + cst.K1 * (cst.U.card : Int))).image
    fun p => ⟨p.1, p.2⟩

/-- First loop measure: unmarked universe cells. -/
def c1 (cst : Consts) (s : AIState) : Nat := (cst.U \ (s.mines ∪ s.safes)).card

/-- Second loop measure: number of empty-celled sentences in the list. -/
def c2 (s : AIState) : Nat := s.knowledge.countP fun sen => decide (sen.cells = ∅)

/-- Distinct non-empty sentences present in a list. -/
def dne (K : List Sentence) : Nat :=
  ((K.filter fun sen => decide (sen.cells ≠ ∅)).toFinset).card

/-- Third loop measure: room left in the sentence universe. -/
def c3 (cst : Consts) (s : AIState) : Nat := (sentUniverse cst).card - dne s.knowledge

/-- Every sentence satisfying the bounds lies in the finite universe. -/
theorem mem_sentUniverse (cst : Consts) (hok : cst.ok) (mines : Finset Cell)
    (K : List Sentence) (hB : BInvK cst mines K) :
    ∀ sen ∈ K, sen ∈ sentUniverse cst := by
  intro sen hs
  obtain ⟨h1, h2, h3⟩ := hB sen hs
  obtain ⟨hl, hK1, hKu⟩ := hok
  have hm : ((mines ∩ cst.U).card : Int) ≤ (cst.U.card : Int) := by
    exact_mod_cast Finset.card_le_card (Finset.inter_subset_right)
  have hcard : (0:Int) ≤ (sen.cells.card : Int) := by positivity
  have hup : cst.K1 * ((cst.U.card : Int) - (sen.cells.card : Int)) ≤
      cst.K1 * (cst.U.card : Int) := by nlinarith
  refine Finset.mem_image.mpr ⟨⟨sen.cells, sen.count⟩, ?_, Sentence.eta_mk sen⟩
  rw [Finset.mem_product]
  exact ⟨Finset.mem_powerset.mpr h1, Finset.mem_Icc.mpr ⟨by omega, by omega⟩⟩

/-- The operation `markSafeSet` preserves `Good`. -/
theorem good_markSafeSet {s : AIState} (h : Good s) (C : Finset Cell) :
    Good (s.markSafeSet C) := by
  intro sen hsen c hc
  simp only [AIState.markSafeSet, List.mem_map] at hsen
  obtain ⟨t, ht, rfl⟩ := hsen
  simp only [Finset.mem_sdiff] at hc
  intro hmem
  rcases Finset.mem_union.mp hmem with hm | hsC
  · exact h t ht c hc.1 (Finset.mem_union_left _ hm)
  · rcases Finset.mem_union.mp hsC with hsafe | hC
    · exact h t ht c hc.1 (Finset.mem_union_right _ hsafe)
    · exact hc.2 hC

/-- The operation `markMineSet` preserves `Good`. -/
theorem good_markMineSet {s : AIState} (h : Good s) (C : Finset Cell) :
    Good (s.markMineSet C) := by
  intro sen hsen c hc
  simp only [AIState.markMineSet, List.mem_map] at hsen
  obtain ⟨t, ht, rfl⟩ := hsen
  simp only [Finset.mem_sdiff] at hc
  intro hmem
  rcases Finset.mem_union.mp hmem with hmC | hsafe
  · rcases Finset.mem_union.mp hmC with hm | hC
    · exact h t ht c hc.1 (Finset.mem_union_left _ hm)
    · exact hc.2 hC
  · exact h t ht c hc.1 (Finset.mem_union_right _ hsafe)

/-- The predicate `GoodK` only weakens when the list shrinks. -/
theorem goodK_sublist {marked : Finset Cell} {K K' : List Sentence}
    (h : GoodK marked K) (hsub : ∀ sen ∈ K', sen ∈ K) : GoodK marked K' :=
  fun sen hs => h sen (hsub sen hs)

end KB

namespace KB

/-- The operation `markSafeSet` preserves the count/cell bounds. -/
theorem binv_markSafeSet {cst : Consts} {s : AIState} (hok : cst.ok)
    (hB : BInv cst s) (C : Finset Cell) : BInv cst (s.markSafeSet C) := by
  intro sen hsen
  simp only [AIState.markSafeSet, List.mem_map] at hsen
  obtain ⟨t, ht, rfl⟩ := hsen
  obtain ⟨h1, h2, h3⟩ := hB t ht
  refine ⟨Finset.sdiff_subset.trans h1, ?_, ?_⟩
  · have hc : ((t.cells \ C).card : Int) ≤ (t.cells.card : Int) := by
      exact_mod_cast Finset.card_le_card Finset.sdiff_subset
    have hK1 := hok.2.1
    nlinarith [h2]
  · exact h3

/-- The operation `markMineSet` preserves the count/cell bounds when the marked set lies
in the universe and is disjoint from the current mines. -/
theorem binv_markMineSet {cst : Consts} {s : AIState} (hok : cst.ok)
    (hB : BInv cst s) {C : Finset Cell} (hCU : C ⊆ cst.U)
    (hCm : ∀ c ∈ C, c ∉ s.mines) : BInv cst (s.markMineSet C) := by
  intro sen hsen
  simp only [AIState.markMineSet, List.mem_map] at hsen
  obtain ⟨t, ht, rfl⟩ := hsen
  obtain ⟨h1, h2, h3⟩ := hB t ht
  have hinter : ((s.mines ∪ C) ∩ cst.U).card = (s.mines ∩ cst.U).card + C.card := by
    rw [Finset.union_inter_distrib_right, Finset.inter_eq_left.mpr hCU,
      Finset.card_union_of_disjoint]
    exact Finset.disjoint_left.mpr fun a ha hc =>
      hCm a hc (Finset.mem_of_mem_inter_left ha)
  refine ⟨Finset.sdiff_subset.trans h1, ?_, ?_⟩
  · have hint : (0:Int) ≤ ((t.cells ∩ C).card : Int) := by positivity
    have hsd : ((t.cells \ C).card : Int) ≤ (t.cells.card : Int) := by
      exact_mod_cast Finset.card_le_card Finset.sdiff_subset
    have hK1 := hok.2.1
    have hmul : cst.K1 * ((cst.U.card : Int) - (t.cells.card : Int)) ≤
        cst.K1 * ((cst.U.card : Int) - ((t.cells \ C).card : Int)) := by
      apply mul_le_mul_of_nonneg_left (by linarith) hK1
    show t.count - ((t.cells ∩ C).card : Int) ≤
      cst.K0 + cst.K1 * ((cst.U.card : Int) - ((t.cells \ C).card : Int))
    linarith
  · have hle : ((t.cells ∩ C).card : Int) ≤ (C.card : Int) := by
      exact_mod_cast Finset.card_le_card Finset.inter_subset_right
    show cst.low - (((s.mines ∪ C) ∩ cst.U).card : Int) ≤
      t.count - ((t.cells ∩ C).card : Int)
    rw [hinter]
    push_cast
    omega

/-- The bounds only weaken when the list shrinks. -/
theorem binvK_sublist {cst : Consts} {mines : Finset Cell}
    {K K' : List Sentence} (hB : BInvK cst mines K)
    (hsub : ∀ sen ∈ K', sen ∈ K) : BInvK cst mines K' :=
  fun sen hs => hB sen (hsub sen hs)

/-- Erasing a counted element lowers `countP` by exactly one. -/
theorem countP_erase_of_mem {x : Sentence} {l : List Sentence} (hx : x ∈ l)
    (p : Sentence → Bool) (hpx : p x = true) :
    (l.erase x).countP p + 1 = l.countP p := by
  have hperm := List.perm_cons_erase hx
  rw [hperm.countP_eq, List.countP_cons, hpx]
  simp

/-- Counting with `countP` never grows along `erase`. -/
theorem countP_erase_le (x : Sentence) (l : List Sentence) (p : Sentence → Bool) :
    (l.erase x).countP p ≤ l.countP p :=
  (List.erase_sublist x l).countP_le p

/-- The measure `dne` never grows along `erase`. -/
theorem dne_erase_le (x : Sentence) (l : List Sentence) :
    dne (l.erase x) ≤ dne l := by
  unfold dne
  apply Finset.card_le_card
  intro a ha
  rw [List.mem_toFinset, List.mem_filter] at ha ⊢
  exact ⟨List.mem_of_mem_erase ha.1, ha.2⟩

/-- Appending a fresh non-empty sentence strictly grows `dne`. -/
theorem dne_append_lt {K D : List Sentence} {d : Sentence} (hd : d ∈ D)
    (hfresh : d ∉ K) (hne : d.cells ≠ ∅) : dne K < dne (K ++ D) := by
  unfold dne
  rw [List.filter_append, List.toFinset_append]
  apply Finset.card_lt_card
  rw [Finset.ssubset_iff_of_subset Finset.subset_union_left]
  refine ⟨d, ?_, ?_⟩
  · apply Finset.mem_union_right
    rw [List.mem_toFinset, List.mem_filter]
    exact ⟨hd, by simpa using hne⟩
  · rw [List.mem_toFinset, List.mem_filter]
    rintro ⟨hdK, -⟩
    exact hfresh hdK

/-- The measure `dne` of an extended list is at least `dne` of the original. -/
theorem dne_append_le (K D : List Sentence) : dne K ≤ dne (K ++ D) := by
  unfold dne
  apply Finset.card_le_card
  intro a ha
  rw [List.mem_toFinset, List.mem_filter] at ha ⊢
  exact ⟨List.mem_append_left _ ha.1, ha.2⟩

/-- The measure `dne` is bounded by the sentence universe when all members lie in
it. -/
theorem dne_le_card {cst : Consts} {K : List Sentence}
    (h : ∀ sen ∈ K, sen ∈ sentUniverse cst) :
    dne K ≤ (sentUniverse cst).card := by
  unfold dne
  apply Finset.card_le_card
  intro a ha
  rw [List.mem_toFinset, List.mem_filter] at ha
  exact h a ha.1

end KB

/-- Characterisation of a successful `known_safes`. -/
theorem Sentence.known_safes_eq_some {sen : Sentence} {cs : Finset Cell}
    (h : sen.known_safes = some cs) : sen.count = 0 ∧ cs = sen.cells := by
  unfold Sentence.known_safes at h
  split_ifs at h with hc
  · exact ⟨hc, (Option.some_injective _ h).symm⟩

/-- Characterisation of a successful `known_mines`. -/
theorem Sentence.known_mines_eq_some {sen : Sentence} {cm : Finset Cell}
    (h : sen.known_mines = some cm) :
    (sen.cells.card : Int) ≤ sen.count ∧ cm = sen.cells := by
  unfold Sentence.known_mines at h
  split_ifs at h with hc
  · exact ⟨hc, (Option.some_injective _ h).symm⟩

namespace KB

/-- Strict lexicographic order on the first two loop measures. -/
def pairLt (a b : Nat × Nat) : Prop :=
  a.1 < b.1 ∨ (a.1 = b.1 ∧ a.2 < b.2)

theorem pairLt_trans {a b c : Nat × Nat} (h1 : pairLt a b) (h2 : pairLt b c) :
    pairLt a c := by
  unfold pairLt at *
  omega

/-- With enough fuel (one unit per remaining index), the resolution pass
always returns. -/
theorem resolutionPass_isSome : ∀ (fuel : Nat) (s : AIState) (i : Nat) (ch : Bool),
    s.knowledge.length - i < fuel →
    (AIState.resolutionPass fuel s i ch).isSome = true := by
  intro fuel
  induction fuel with
  | zero => intro s i ch h; omega
  | succ f ih =>
    intro s i ch h
    rw [AIState.resolutionPass]
    rcases hget : s.knowledge.get? i with _ | sen
    · simp
    · have hi : i < s.knowledge.length := by
        by_contra hc
        rw [List.get?_eq_none.mpr (by omega)] at hget
        exact Option.noConfusion hget
      simp only [hget]
      rcases hks : sen.known_safes with _ | cs
      · rcases hkm : sen.known_mines with _ | cm
        · simp only [hks, hkm]
          exact ih s (i + 1) ch (by omega)
        · simp only [hks, hkm]
          rcases hget1 : (s.markMineSet cm).knowledge.get? i with _ | sen1
          · exfalso
            have hlen : (s.markMineSet cm).knowledge.length = s.knowledge.length := by
              simp [AIState.markMineSet]
            rw [List.get?_eq_none] at hget1
            omega
          · simp only [hget1]
            apply ih
            have hmem : sen1 ∈ (s.markMineSet cm).knowledge := List.get?_mem hget1
            have hlen : (s.markMineSet cm).knowledge.length = s.knowledge.length := by
              simp [AIState.markMineSet]
            have herase := List.length_erase_of_mem hmem
            simp only [herase, hlen]
            omega
      · simp only [hks]
        rcases hget1 : (s.markSafeSet cs).knowledge.get? i with _ | sen1
        · exfalso
          have hlen : (s.markSafeSet cs).knowledge.length = s.knowledge.length := by
            simp [AIState.markSafeSet]
          rw [List.get?_eq_none] at hget1
          omega
        · simp only [hget1]
          apply ih
          have hmem : sen1 ∈ (s.markSafeSet cs).knowledge := List.get?_mem hget1
          have hlen : (s.markSafeSet cs).knowledge.length = s.knowledge.length := by
            simp [AIState.markSafeSet]
          have herase := List.length_erase_of_mem hmem
          simp only [herase, hlen]
          omega

end KB

namespace KB

/-- Marking a non-empty set of unmarked universe cells strictly shrinks
the unmarked region. -/
theorem unmarked_strict {cst : Consts} {s : AIState} {C : Finset Cell}
    (hCU : C ⊆ cst.U) (hCnew : ∀ c ∈ C, c ∉ s.mines ∪ s.safes)
    (hne : C.Nonempty) {B : Finset Cell}
    (hB : B = (s.mines ∪ s.safes) ∪ C) :
    (cst.U \ B).card < (cst.U \ (s.mines ∪ s.safes)).card := by
  subst hB
  apply Finset.card_lt_card
  rw [Finset.ssubset_iff_of_subset]
  · obtain ⟨x, hx⟩ := hne
    refine ⟨x, Finset.mem_sdiff.mpr ⟨hCU hx, hCnew x hx⟩, ?_⟩
    rw [Finset.mem_sdiff]
    rintro ⟨-, hnot⟩
    exact hnot (Finset.mem_union_right _ hx)
  · intro y hy
    rw [Finset.mem_sdiff] at hy ⊢
    exact ⟨hy.1, fun hA => hy.2 (Finset.mem_union_left _ hA)⟩

end KB

namespace KB

/-- What one resolution pass does: it preserves `Good` and the bounds, and
either it changes nothing (returning the flag it was given) or the pair
(unmarked cells, empty sentences) strictly drops lexicographically. -/
theorem resolutionPass_spec (cst : Consts) (hok : cst.ok) :
    ∀ (fuel : Nat) (s : AIState) (i : Nat) (ch : Bool) (s' : AIState) (ch' : Bool),
      AIState.resolutionPass fuel s i ch = some (s', ch') →
      Good s → BInv cst s →
      Good s' ∧ BInv cst s' ∧
      ((s' = s ∧ ch' = ch) ∨ pairLt (c1 cst s', c2 s') (c1 cst s, c2 s)) := by
  intro fuel
  induction fuel with
  | zero =>
    intro s i ch s' ch' heq
    rw [AIState.resolutionPass] at heq
    exact Option.noConfusion heq
  | succ f ih =>
    intro s i ch s' ch' heq hG hB
    rw [AIState.resolutionPass] at heq
    rcases hget : s.knowledge.get? i with _ | sen
    · simp only [hget] at heq
      simp only [Option.some.injEq, Prod.mk.injEq] at heq
      obtain ⟨rfl, rfl⟩ := heq
      exact ⟨hG, hB, Or.inl ⟨rfl, rfl⟩⟩
    · simp only [hget] at heq
      have hsen : sen ∈ s.knowledge := List.get?_mem hget
      have hUsub : sen.cells ⊆ cst.U := (hB sen hsen).1
      have hnew : ∀ c ∈ sen.cells, c ∉ s.mines ∪ s.safes := fun c hc => hG sen hsen c hc
      rcases hks : sen.known_safes with _ | cs
      · rcases hkm : sen.known_mines with _ | cm
        · simp only [hks, hkm] at heq
          exact ih s (i + 1) ch s' ch' heq hG hB
        · simp only [hks, hkm] at heq
          obtain ⟨hcount, rfl⟩ := Sentence.known_mines_eq_some hkm
          rcases hget1 : (s.markMineSet sen.cells).knowledge.get? i with _ | sen1
          · simp only [hget1] at heq
            exact Option.noConfusion heq
          · simp only [hget1] at heq
            rcases Finset.eq_empty_or_nonempty sen.cells with hemp | hne
            · rw [hemp, AIState.markMineSet_empty] at heq hget1
              rw [hget] at hget1
              obtain rfl : sen = sen1 := Option.some_inj.mp hget1
              obtain ⟨hG', hB', hrest⟩ :=
                ih { s with knowledge := s.knowledge.erase sen } (i + 1) true s' ch' heq
                  (fun t ht => hG t (List.mem_of_mem_erase ht))
                  (fun t ht => hB t (List.mem_of_mem_erase ht))
              refine ⟨hG', hB', Or.inr ?_⟩
              have hstep : pairLt
                  (c1 cst { s with knowledge := s.knowledge.erase sen },
                   c2 { s with knowledge := s.knowledge.erase sen })
                  (c1 cst s, c2 s) := by
                right
                refine ⟨rfl, ?_⟩
                have hc := countP_erase_of_mem hsen
                  (fun t => decide (t.cells = ∅)) (by simp [hemp])
                show (s.knowledge.erase sen).countP _ < s.knowledge.countP _
                omega
              rcases hrest with ⟨rfl, -⟩ | hlt
              · exact hstep
              · exact pairLt_trans hlt hstep
            · have hCm : ∀ c ∈ sen.cells, c ∉ s.mines := fun c hc hm =>
                hnew c hc (Finset.mem_union_left _ hm)
              have hG1 : Good (s.markMineSet sen.cells) := good_markMineSet hG sen.cells
              have hB1 : BInv cst (s.markMineSet sen.cells) :=
                binv_markMineSet hok hB hUsub hCm
              obtain ⟨hG', hB', hrest⟩ :=
                ih { s.markMineSet sen.cells with
                      knowledge := (s.markMineSet sen.cells).knowledge.erase sen1 }
                  (i + 1) true s' ch' heq
                  (fun t ht => hG1 t (List.mem_of_mem_erase ht))
                  (fun t ht => hB1 t (List.mem_of_mem_erase ht))
              refine ⟨hG', hB', Or.inr ?_⟩
              have hstep : pairLt
                  (c1 cst { s.markMineSet sen.cells with
                      knowledge := (s.markMineSet sen.cells).knowledge.erase sen1 },
                   c2 { s.markMineSet sen.cells with
                      knowledge := (s.markMineSet sen.cells).knowledge.erase sen1 })
                  (c1 cst s, c2 s) := by
                left
                refine unmarked_strict hUsub hnew hne ?_
                show s.mines ∪ sen.cells ∪ s.safes = s.mines ∪ s.safes ∪ sen.cells
                rw [Finset.union_right_comm]
              rcases hrest with ⟨rfl, -⟩ | hlt
              · exact hstep
              · exact pairLt_trans hlt hstep
      · simp only [hks] at heq
        obtain ⟨hcount, rfl⟩ := Sentence.known_safes_eq_some hks
        rcases hget1 : (s.markSafeSet sen.cells).knowledge.get? i with _ | sen1
        · simp only [hget1] at heq
          exact Option.noConfusion heq
        · simp only [hget1] at heq
          rcases Finset.eq_empty_or_nonempty sen.cells with hemp | hne
          · rw [hemp, AIState.markSafeSet_empty] at heq hget1
            rw [hget] at hget1
            obtain rfl : sen = sen1 := Option.some_inj.mp hget1
            obtain ⟨hG', hB', hrest⟩ :=
              ih { s with knowledge := s.knowledge.erase sen } (i + 1) true s' ch' heq
                (fun t ht => hG t (List.mem_of_mem_erase ht))
                (fun t ht => hB t (List.mem_of_mem_erase ht))
            refine ⟨hG', hB', Or.inr ?_⟩
            have hstep : pairLt
                (c1 cst { s with knowledge := s.knowledge.erase sen },
                 c2 { s with knowledge := s.knowledge.erase sen })
                (c1 cst s, c2 s) := by
              right
              refine ⟨rfl, ?_⟩
              have hc := countP_erase_of_mem hsen
                (fun t => decide (t.cells = ∅)) (by simp [hemp])
              show (s.knowledge.erase sen).countP _ < s.knowledge.countP _
              omega
            rcases hrest with ⟨rfl, -⟩ | hlt
            · exact hstep
            · exact pairLt_trans hlt hstep
          · have hG1 : Good (s.markSafeSet sen.cells) := good_markSafeSet hG sen.cells
            have hB1 : BInv cst (s.markSafeSet sen.cells) :=
              binv_markSafeSet hok hB sen.cells
            obtain ⟨hG', hB', hrest⟩ :=
              ih { s.markSafeSet sen.cells with
                    knowledge := (s.markSafeSet sen.cells).knowledge.erase sen1 }
                (i + 1) true s' ch' heq
                (fun t ht => hG1 t (List.mem_of_mem_erase ht))
                (fun t ht => hB1 t (List.mem_of_mem_erase ht))
            refine ⟨hG', hB', Or.inr ?_⟩
            have hstep : pairLt
                (c1 cst { s.markSafeSet sen.cells with
                    knowledge := (s.markSafeSet sen.cells).knowledge.erase sen1 },
                 c2 { s.markSafeSet sen.cells with
                    knowledge := (s.markSafeSet sen.cells).knowledge.erase sen1 })
                (c1 cst s, c2 s) := by
              left
              refine unmarked_strict hUsub hnew hne ?_
              show s.mines ∪ (s.safes ∪ sen.cells) = s.mines ∪ s.safes ∪ sen.cells
              rw [Finset.union_assoc]
            rcases hrest with ⟨rfl, -⟩ | hlt
            · exact hstep
            · exact pairLt_trans hlt hstep

end KB

namespace KB

/-- Case analysis of the inference body: it leaves the list unchanged or
appends exactly one derived sentence `X.cells - Y.cells` with count
`X.count - Y.count`, where `(X, Y)` is `(A, B)` or `(B, A)`, the smaller
cell set is non-empty and contained in the larger, the difference is
non-empty, the count strictly positive, and the sentence fresh. -/
theorem inferStep_spec (K : List Sentence) (A B : Sentence) :
    AIState.inferStep K A B = K ∨
    ∃ X Y : Sentence, ((X = A ∧ Y = B) ∨ (X = B ∧ Y = A)) ∧
      Y.cells ⊆ X.cells ∧ Y.cells.Nonempty ∧ (X.cells \ Y.cells).Nonempty ∧
      0 < X.count - Y.count ∧
      (⟨X.cells \ Y.cells, X.count - Y.count⟩ : Sentence) ∉ K ∧
      AIState.inferStep K A B = K ++ [⟨X.cells \ Y.cells, X.count - Y.count⟩] := by
  simp only [AIState.inferStep]
  split_ifs with h1 h2 h3 h4 h5
  · exact Or.inl rfl
  · exact Or.inl rfl
  · exact absurd h4.1 h3.2.1
  · push_neg at h2
    refine Or.inr ⟨A, B, Or.inl ⟨rfl, rfl⟩,
      Finset.sdiff_eq_empty_iff_subset.mp h3.1,
      Finset.nonempty_iff_ne_empty.mpr h2.2,
      Finset.nonempty_iff_ne_empty.mpr h3.2.1, h3.2.2.1, h3.2.2.2, rfl⟩
  · push_neg at h2
    refine Or.inr ⟨B, A, Or.inr ⟨rfl, rfl⟩,
      Finset.sdiff_eq_empty_iff_subset.mp h5.1,
      Finset.nonempty_iff_ne_empty.mpr h2.1,
      Finset.nonempty_iff_ne_empty.mpr h5.2.1, h5.2.2.1, h5.2.2.2, rfl⟩
  · exact Or.inl rfl

/-- The derived sentence of a subset inference satisfies the count/cell
bounds whenever its two parents do. -/
theorem derived_bounds {cst : Consts} (hok : cst.ok) (mines : Finset Cell)
    {X Y : Sentence}
    (hXU : X.cells ⊆ cst.U)
    (hXup : X.count ≤ cst.K0 + cst.K1 * ((cst.U.card : Int) - (X.cells.card : Int)))
    (hYlow : cst.low - ((mines ∩ cst.U).card : Int) ≤ Y.count)
    (hsub : Y.cells ⊆ X.cells) (hYne : Y.cells.Nonempty)
    (hpos : 0 < X.count - Y.count) :
    (X.cells \ Y.cells) ⊆ cst.U ∧
    X.count - Y.count ≤
      cst.K0 + cst.K1 * ((cst.U.card : Int) - ((X.cells \ Y.cells).card : Int)) ∧
    cst.low - ((mines ∩ cst.U).card : Int) ≤ X.count - Y.count := by
  obtain ⟨hl, hK1, hKu⟩ := hok
  have hcards : (X.cells \ Y.cells).card + Y.cells.card = X.cells.card :=
    Finset.card_sdiff_add_card_eq_card hsub
  have hY1 : 1 ≤ Y.cells.card := Finset.card_pos.mpr hYne
  have hmU : ((mines ∩ cst.U).card : Int) ≤ (cst.U.card : Int) := by
    exact_mod_cast Finset.card_le_card Finset.inter_subset_right
  have hmnn : (0:Int) ≤ ((mines ∩ cst.U).card : Int) := by positivity
  refine ⟨Finset.sdiff_subset.trans hXU, ?_, ?_⟩
  · have hYlow' : cst.low - ((mines ∩ cst.U).card : Int) ≤ Y.count := hYlow
    have hKmul : cst.K1 * ((cst.U.card : Int) - (X.cells.card : Int)) + cst.K1 ≤
        cst.K1 * ((cst.U.card : Int) - ((X.cells \ Y.cells).card : Int)) := by
      have hYI : (1:Int) ≤ (Y.cells.card : Int) := by exact_mod_cast hY1
      have hEq : (X.cells.card : Int) =
          ((X.cells \ Y.cells).card : Int) + (Y.cells.card : Int) := by
        exact_mod_cast hcards.symm
      nlinarith
    linarith
  · linarith

end KB

namespace KB

/-- One inference body application preserves `GoodK` and the bounds, and
either leaves the list unchanged or appends one fresh non-empty-celled
sentence. -/
theorem inferStep_preserves (cst : Consts) (hok : cst.ok)
    (marked mines : Finset Cell) {K : List Sentence} {A B : Sentence}
    (hAK : A ∈ K) (hBK : B ∈ K)
    (hG : GoodK marked K) (hBv : BInvK cst mines K) :
    GoodK marked (AIState.inferStep K A B) ∧
    BInvK cst mines (AIState.inferStep K A B) ∧
    (AIState.inferStep K A B = K ∨
      ∃ d : Sentence, AIState.inferStep K A B = K ++ [d] ∧ d ∉ K ∧ d.cells.Nonempty) := by
  rcases inferStep_spec K A B with heq | ⟨X, Y, hXY, hsub, hYne, hdne, hpos, hfresh, heq⟩
  · rw [heq]; exact ⟨hG, hBv, Or.inl rfl⟩
  · have hXK : X ∈ K := by
      rcases hXY with ⟨rfl, -⟩ | ⟨rfl, -⟩
      · exact hAK
      · exact hBK
    have hYK : Y ∈ K := by
      rcases hXY with ⟨-, rfl⟩ | ⟨-, rfl⟩
      · exact hBK
      · exact hAK
    obtain ⟨hXU, hXup, hXlow⟩ := hBv X hXK
    obtain ⟨hYU, hYup, hYlow⟩ := hBv Y hYK
    obtain ⟨hdU, hdup, hdlow⟩ := derived_bounds hok mines hXU hXup hYlow hsub hYne hpos
    rw [heq]
    refine ⟨?_, ?_, Or.inr ⟨_, rfl, hfresh, hdne⟩⟩
    · intro sen hs
      rcases List.mem_append.mp hs with hs | hs
      · exact hG sen hs
      · rw [List.mem_singleton] at hs
        subst hs
        intro c hc
        exact hG X hXK c (Finset.mem_sdiff.mp hc).1
    · intro sen hs
      rcases List.mem_append.mp hs with hs | hs
      · exact hBv sen hs
      · rw [List.mem_singleton] at hs
        subst hs
        exact ⟨hdU, hdup, hdlow⟩

/-- Lexicographic order on the inference-pass measure. -/
def TripRel : (Nat × Nat × Nat) → (Nat × Nat × Nat) → Prop :=
  Prod.Lex (· < ·) (Prod.Lex (· < ·) (· < ·))

theorem tripRel_wf : WellFounded TripRel :=
  WellFounded.prod_lex wellFounded_lt (WellFounded.prod_lex wellFounded_lt wellFounded_lt)

theorem tripRel_first {x y : Nat × Nat × Nat} (h : x.1 < y.1) : TripRel x y :=
  Prod.Lex.left x.2 y.2 h

theorem tripRel_second {x : Nat} {p q : Nat × Nat} (h : p.1 < q.1) :
    TripRel (x, p) (x, q) :=
  Prod.Lex.right x (Prod.Lex.left p.2 q.2 h)

theorem tripRel_third {x y b c : Nat} (h : b < c) : TripRel (x, y, b) (x, y, c) :=
  Prod.Lex.right x (Prod.Lex.right y h)

/-- The inference-pass measure: room in the sentence universe, then the
remaining outer iterations, then the remaining inner iterations. -/
def mTrip (cst : Consts) (K : List Sentence) (a b : Nat) : Nat × Nat × Nat :=
  ((sentUniverse cst).card - K.toFinset.card, K.length - a, K.length - b)

/-- The conclusion of the inference-pass analysis: some fuel makes the
pass return, preserving `GoodK` and the bounds, having only appended
fresh non-empty-celled sentences, and reporting a change only when it
appended. -/
def PassOut (cst : Consts) (marked mines : Finset Cell)
    (K : List Sentence) (a b : Nat) (ch : Bool) : Prop :=
  ∃ fuel K' ch', AIState.inferencePass fuel K a b ch = some (K', ch') ∧
    GoodK marked K' ∧ BInvK cst mines K' ∧
    ∃ D, K' = K ++ D ∧ (∀ d ∈ D, d.cells.Nonempty) ∧
      ((D = [] ∧ ch' = ch) ∨ ∃ d ∈ D, d ∉ K)

end KB

namespace KB

/-- The inference pass terminates with enough fuel: it only appends fresh
non-empty-celled sentences, preserves `GoodK` and the bounds, and reports
a change only when it appended something. -/
theorem inferencePass_total (cst : Consts) (hok : cst.ok) (marked mines : Finset Cell) :
    ∀ (K : List Sentence) (a b : Nat) (ch : Bool),
      GoodK marked K → BInvK cst mines K →
      PassOut cst marked mines K a b ch := by
  have main : ∀ v : Nat × Nat × Nat, ∀ (K : List Sentence) (a b : Nat) (ch : Bool),
      mTrip cst K a b = v → GoodK marked K → BInvK cst mines K →
      PassOut cst marked mines K a b ch := by
    intro v
    refine @WellFounded.induction _ TripRel tripRel_wf
      (fun v => ∀ (K : List Sentence) (a b : Nat) (ch : Bool),
        mTrip cst K a b = v → GoodK marked K → BInvK cst mines K →
        PassOut cst marked mines K a b ch) v ?_
    clear v
    intro v IH K a b ch hv hG hBv
    subst hv
    have IH' : ∀ (K₂ : List Sentence) (a₂ b₂ : Nat) (ch₂ : Bool),
        TripRel (mTrip cst K₂ a₂ b₂) (mTrip cst K a b) →
        GoodK marked K₂ → BInvK cst mines K₂ →
        PassOut cst marked mines K₂ a₂ b₂ ch₂ :=
      fun K₂ a₂ b₂ ch₂ hrel => IH _ hrel K₂ a₂ b₂ ch₂ rfl
    rcases hga : K.get? a with _ | A
    · refine ⟨1, K, ch, ?_, hG, hBv, [], by simp, by simp, Or.inl ⟨rfl, rfl⟩⟩
      rw [AIState.inferencePass, hga]
    · have haK : a < K.length := by
        by_contra hc
        rw [List.get?_eq_none.mpr (by omega)] at hga
        exact Option.noConfusion hga
      rcases hgb : K.get? b with _ | B
      · obtain ⟨fuel, K', ch', hrun, hG', hBv', D, hDeq, hDne, hDch⟩ :=
          IH' K (a + 1) 0 ch
            (by
              have h2 : K.length - (a + 1) < K.length - a := by omega
              exact tripRel_second h2) hG hBv
        refine ⟨fuel + 1, K', ch', ?_, hG', hBv', D, hDeq, hDne, hDch⟩
        rw [AIState.inferencePass, hga, hgb]
        exact hrun
      · have hbK : b < K.length := by
          by_contra hc
          rw [List.get?_eq_none.mpr (by omega)] at hgb
          exact Option.noConfusion hgb
        have hAK : A ∈ K := List.get?_mem hga
        have hBK : B ∈ K := List.get?_mem hgb
        obtain ⟨hG1, hBv1, hcase⟩ :=
          inferStep_preserves cst hok marked mines hAK hBK hG hBv
        rcases hcase with hKeq | ⟨d, hKeq, hdfresh, hdne⟩
        · obtain ⟨fuel, K', ch', hrun, hG', hBv', D, hDeq, hDne, hDch⟩ :=
            IH' K a (b + 1) ch
              (by
                have h3 : K.length - (b + 1) < K.length - b := by omega
                exact tripRel_third h3) hG hBv
          refine ⟨fuel + 1, K', ch', ?_, hG', hBv', D, hDeq, hDne, hDch⟩
          rw [AIState.inferencePass, hga, hgb]
          show AIState.inferencePass fuel (AIState.inferStep K A B) a (b + 1)
            (ch || decide (K.length < (AIState.inferStep K A B).length)) = some (K', ch')
          rw [hKeq]
          simpa using hrun
        · have hlen1 : (AIState.inferStep K A B).length = K.length + 1 := by
            rw [hKeq]; simp
          have hsubP : (AIState.inferStep K A B).toFinset ⊆ sentUniverse cst :=
            fun x hx => mem_sentUniverse cst hok mines _ hBv1 x (List.mem_toFinset.mp hx)
          have hcard1 : (AIState.inferStep K A B).toFinset.card = K.toFinset.card + 1 := by
            rw [hKeq, List.toFinset_append]
            have hsing : ([d] : List Sentence).toFinset = {d} := by simp
            rw [hsing, Finset.union_comm, ← Finset.insert_eq]
            exact Finset.card_insert_of_not_mem
              (fun hmem => hdfresh (List.mem_toFinset.mp hmem))
          have hbud : (sentUniverse cst).card - (AIState.inferStep K A B).toFinset.card <
              (sentUniverse cst).card - K.toFinset.card := by
            have hle := Finset.card_le_card hsubP
            rw [hcard1] at hle ⊢
            omega
          obtain ⟨fuel, K', ch', hrun, hG', hBv', D, hDeq, hDne, hDch⟩ :=
            IH' (AIState.inferStep K A B) a (b + 1) true (tripRel_first hbud) hG1 hBv1
          refine ⟨fuel + 1, K', ch', ?_, hG', hBv', d :: D, ?_, ?_,
            Or.inr ⟨d, List.mem_cons_self d D, hdfresh⟩⟩
          · rw [AIState.inferencePass, hga, hgb]
            show AIState.inferencePass fuel (AIState.inferStep K A B) a (b + 1)
              (ch || decide (K.length < (AIState.inferStep K A B).length)) = some (K', ch')
            have hflag : (ch || decide (K.length < (AIState.inferStep K A B).length)) = true := by
              rw [hlen1]
              simp
            rw [hflag]
            exact hrun
          · rw [hDeq, hKeq]
            simp
          · intro x hx
            rcases List.mem_cons.mp hx with rfl | hx
            · exact hdne
            · exact hDne x hx
  intro K a b ch hG hBv
  exact main (mTrip cst K a b) K a b ch rfl hG hBv

end KB

namespace KB

/-- More fuel never changes a successful inference pass. -/
theorem inferencePass_mono : ∀ (f f' : Nat) (K : List Sentence) (a b : Nat)
    (ch : Bool) (r : List Sentence × Bool),
    AIState.inferencePass f K a b ch = some r → f ≤ f' →
    AIState.inferencePass f' K a b ch = some r := by
  intro f
  induction f with
  | zero =>
    intro f' K a b ch r h
    rw [AIState.inferencePass] at h
    exact absurd h (by simp)
  | succ n ih =>
    intro f' K a b ch r h hle
    obtain ⟨f2, rfl⟩ : ∃ f2, f' = f2 + 1 := ⟨f' - 1, by omega⟩
    rw [AIState.inferencePass] at h ⊢
    rcases hga : K.get? a with _ | A
    · rw [hga] at h
      exact h
    · rcases hgb : K.get? b with _ | B
      · rw [hga, hgb] at h
        have h' : AIState.inferencePass n K (a + 1) 0 ch = some r := h
        show AIState.inferencePass f2 K (a + 1) 0 ch = some r
        exact ih f2 K (a + 1) 0 ch r h' (by omega)
      · rw [hga, hgb] at h
        have h' : AIState.inferencePass n (AIState.inferStep K A B) a (b + 1)
            (ch || decide (K.length < (AIState.inferStep K A B).length)) = some r := h
        show AIState.inferencePass f2 (AIState.inferStep K A B) a (b + 1)
            (ch || decide (K.length < (AIState.inferStep K A B).length)) = some r
        exact ih f2 _ a (b + 1) _ r h' (by omega)

/-- More fuel never changes a successful fixpoint loop. -/
theorem fixpointLoop_mono : ∀ (f f' : Nat) (s s' : AIState),
    AIState.fixpointLoop f s = some s' → f ≤ f' →
    AIState.fixpointLoop f' s = some s' := by
  intro f
  induction f with
  | zero =>
    intro f' s s' h
    rw [AIState.fixpointLoop] at h
    exact absurd h (by simp)
  | succ n ih =>
    intro f' s s' h hle
    obtain ⟨f2, rfl⟩ : ∃ f2, f' = f2 + 1 := ⟨f' - 1, by omega⟩
    rw [AIState.fixpointLoop] at h ⊢
    rcases hres : AIState.resolutionPass (s.knowledge.length + 2) s 0 false with _ | p
    · rw [hres] at h
      have h' : (none : Option AIState) = some s' := h
      exact Option.noConfusion h'
    · obtain ⟨s1, ch1⟩ := p
      rw [hres] at h
      have h0 : (match AIState.inferencePass (n + 1) s1.knowledge 0 0 ch1 with
          | none => none
          | some (K2, ch2) =>
            if ch2 then AIState.fixpointLoop n { s1 with knowledge := K2 }
            else some { s1 with knowledge := K2 }) = some s' := h
      rcases hinf : AIState.inferencePass (n + 1) s1.knowledge 0 0 ch1 with _ | q
      · rw [hinf] at h0
        have h' : (none : Option AIState) = some s' := h0
        exact Option.noConfusion h'
      · obtain ⟨K2, ch2⟩ := q
        rw [hinf] at h0
        have h' : (if ch2 then AIState.fixpointLoop n { s1 with knowledge := K2 }
            else some { s1 with knowledge := K2 }) = some s' := h0
        have hinf' : AIState.inferencePass (f2 + 1) s1.knowledge 0 0 ch1 = some (K2, ch2) :=
          inferencePass_mono (n + 1) (f2 + 1) _ 0 0 ch1 _ hinf (by omega)
        show (match AIState.inferencePass (f2 + 1) s1.knowledge 0 0 ch1 with
          | none => none
          | some (K2, ch2) =>
            if ch2 then AIState.fixpointLoop f2 { s1 with knowledge := K2 }
            else some { s1 with knowledge := K2 }) = some s'
        rw [hinf']
        show (if ch2 then AIState.fixpointLoop f2 { s1 with knowledge := K2 }
          else some { s1 with knowledge := K2 }) = some s'
        rcases Bool.eq_false_or_eq_true ch2 with hch | hch
        · rw [hch] at h' ⊢
          simp only [if_true] at h' ⊢
          exact ih f2 _ s' h' (by omega)
        · rw [hch] at h' ⊢
          simpa using h'

end KB

namespace KB

theorem tripRel_of_parts {x1 x2 x3 y1 y2 y3 : Nat}
    (h : x1 < y1 ∨ (x1 = y1 ∧ (x2 < y2 ∨ (x2 = y2 ∧ x3 < y3)))) :
    TripRel (x1, x2, x3) (y1, y2, y3) := by
  rcases h with h | ⟨rfl, h | ⟨rfl, h⟩⟩
  · exact tripRel_first h
  · exact tripRel_second h
  · exact tripRel_third h

/-- The fixpoint loop of `add_knowledge` terminates from every state whose
knowledge satisfies `Good` and some bounds: each continued round strictly
shrinks the triple (unmarked universe cells, empty sentences, room in the
sentence universe) lexicographically. -/
theorem fixpointLoop_total (cst : Consts) (hok : cst.ok) :
    ∀ s : AIState, Good s → BInv cst s →
      ∃ fuel s', AIState.fixpointLoop fuel s = some s' ∧ Good s' := by
  have main : ∀ v : Nat × Nat × Nat, ∀ s : AIState,
      Good s → BInv cst s → (c1 cst s, c2 s, c3 cst s) = v →
      ∃ fuel s', AIState.fixpointLoop fuel s = some s' ∧ Good s' := by
    intro v
    refine @WellFounded.induction _ TripRel tripRel_wf
      (fun v => ∀ s : AIState, Good s → BInv cst s → (c1 cst s, c2 s, c3 cst s) = v →
        ∃ fuel s', AIState.fixpointLoop fuel s = some s' ∧ Good s') v ?_
    clear v
    intro v IH s hG hBv hv
    subst hv
    have hres_some : (AIState.resolutionPass (s.knowledge.length + 2) s 0 false).isSome = true :=
      resolutionPass_isSome (s.knowledge.length + 2) s 0 false (by omega)
    obtain ⟨p, hres⟩ := Option.isSome_iff_exists.mp hres_some
    obtain ⟨s1, ch1⟩ := p
    obtain ⟨hG1, hB1, hres_rel⟩ :=
      resolutionPass_spec cst hok (s.knowledge.length + 2) s 0 false s1 ch1 hres hG hBv
    obtain ⟨finf, K2, ch2, hinf, hG2K, hB2K, D, hDeq, hDne, hDch⟩ :=
      inferencePass_total cst hok (s1.mines ∪ s1.safes) s1.mines s1.knowledge 0 0 ch1 hG1 hB1
    have hG2 : Good { s1 with knowledge := K2 } := hG2K
    have hB2 : BInv cst { s1 with knowledge := K2 } := hB2K
    have hc2eq : c2 { s1 with knowledge := K2 } = c2 s1 := by
      show K2.countP _ = s1.knowledge.countP _
      rw [hDeq, List.countP_append]
      have hz : D.countP (fun sen => decide (sen.cells = ∅)) = 0 :=
        List.countP_eq_zero.mpr (fun d hd => by
          simpa using Finset.nonempty_iff_ne_empty.mp (hDne d hd))
      omega
    rcases Bool.dichotomy ch2 with hch2 | hch2
    · refine ⟨finf + 1, { s1 with knowledge := K2 }, ?_, hG2⟩
      rw [AIState.fixpointLoop, hres]
      show (match AIState.inferencePass (finf + 1) s1.knowledge 0 0 ch1 with
        | none => none
        | some (K2, ch2) =>
          if ch2 then AIState.fixpointLoop finf { s1 with knowledge := K2 }
          else some { s1 with knowledge := K2 }) = some { s1 with knowledge := K2 }
      have hinf' := inferencePass_mono finf (finf + 1) s1.knowledge 0 0 ch1 _ hinf (by omega)
      rw [hinf']
      show (if ch2 then AIState.fixpointLoop finf { s1 with knowledge := K2 }
        else some { s1 with knowledge := K2 }) = some { s1 with knowledge := K2 }
      rw [hch2]
      simp
    · have hlt : TripRel
          (c1 cst { s1 with knowledge := K2 }, c2 { s1 with knowledge := K2 },
            c3 cst { s1 with knowledge := K2 })
          (c1 cst s, c2 s, c3 cst s) := by
        rcases hres_rel with ⟨heq1, hcheq⟩ | hlex
        · subst heq1
          have hD : ∃ d ∈ D, d ∉ s1.knowledge := by
            rcases hDch with ⟨hD0, hch⟩ | h
            · rw [hcheq, hch2] at hch
              exact absurd hch (by simp)
            · exact h
          obtain ⟨d, hdD, hdfresh⟩ := hD
          have hc3lt : c3 cst { s1 with knowledge := K2 } < c3 cst s1 := by
            have hlt2 : dne s1.knowledge < dne K2 := by
              rw [hDeq]
              exact dne_append_lt hdD hdfresh
                (Finset.nonempty_iff_ne_empty.mp (hDne d hdD))
            have hbound : dne K2 ≤ (sentUniverse cst).card :=
              dne_le_card (mem_sentUniverse cst hok s1.mines K2 hB2K)
            show (sentUniverse cst).card - dne K2 <
              (sentUniverse cst).card - dne s1.knowledge
            omega
          apply tripRel_of_parts
          have e1 : c1 cst { s1 with knowledge := K2 } = c1 cst s1 := rfl
          have e2 : c2 { s1 with knowledge := K2 } = c2 s1 := hc2eq
          omega
        · apply tripRel_of_parts
          unfold pairLt at hlex
          have e1 : c1 cst { s1 with knowledge := K2 } = c1 cst s1 := rfl
          omega
      obtain ⟨f2, s', hloop2, hG'⟩ := IH _ hlt { s1 with knowledge := K2 } hG2 hB2 rfl
      refine ⟨max (finf + 1) (f2 + 1), s', ?_, hG'⟩
      obtain ⟨M, hM⟩ : ∃ M, max (finf + 1) (f2 + 1) = M + 1 :=
        ⟨max (finf + 1) (f2 + 1) - 1, by omega⟩
      rw [hM, AIState.fixpointLoop, hres]
      show (match AIState.inferencePass (M + 1) s1.knowledge 0 0 ch1 with
        | none => none
        | some (K2, ch2) =>
          if ch2 then AIState.fixpointLoop M { s1 with knowledge := K2 }
          else some { s1 with knowledge := K2 }) = some s'
      have hinf' := inferencePass_mono finf (M + 1) s1.knowledge 0 0 ch1 _ hinf (by omega)
      rw [hinf']
      show (if ch2 then AIState.fixpointLoop M { s1 with knowledge := K2 }
        else some { s1 with knowledge := K2 }) = some s'
      rw [hch2]
      simp only [if_true]
      exact fixpointLoop_mono f2 M _ s' hloop2 (by omega)
  intro s hG hBv
  exact main _ s hG hBv rfl

end KB

namespace KB

/-- The union of all sentence cell sets of a knowledge list. -/
def cellsU (K : List Sentence) : Finset Cell :=
  K.foldr (fun sen acc => sen.cells ∪ acc) ∅

/-- The maximum sentence count of a knowledge list (at least 0). -/
def maxC (K : List Sentence) : Int :=
  K.foldr (fun sen acc => max sen.count acc) 0

/-- The minimum sentence count of a knowledge list (at most 0). -/
def minC (K : List Sentence) : Int :=
  K.foldr (fun sen acc => min sen.count acc) 0

theorem mem_cellsU {K : List Sentence} {sen : Sentence} (hs : sen ∈ K) :
    sen.cells ⊆ cellsU K := by
  induction K with
  | nil => exact absurd hs (List.not_mem_nil sen)
  | cons t l ih =>
    rcases List.mem_cons.mp hs with rfl | hs'
    · exact Finset.subset_union_left
    · exact (ih hs').trans Finset.subset_union_right

theorem le_maxC {K : List Sentence} {sen : Sentence} (hs : sen ∈ K) :
    sen.count ≤ maxC K := by
  induction K with
  | nil => exact absurd hs (List.not_mem_nil sen)
  | cons t l ih =>
    rcases List.mem_cons.mp hs with rfl | hs'
    · exact le_max_left _ _
    · exact (ih hs').trans (le_max_right _ _)

theorem minC_le {K : List Sentence} {sen : Sentence} (hs : sen ∈ K) :
    minC K ≤ sen.count := by
  induction K with
  | nil => exact absurd hs (List.not_mem_nil sen)
  | cons t l ih =>
    rcases List.mem_cons.mp hs with rfl | hs'
    · exact min_le_left _ _
    · exact (min_le_right _ _).trans (ih hs')

/-- Every state has bounding constants: the union of all sentence cells
as universe, and the extremal counts for `K0` and `low`. -/
theorem exists_consts (s : AIState) : ∃ cst : Consts, cst.ok ∧ BInv cst s := by
  refine ⟨⟨cellsU s.knowledge, max 0 (maxC s.knowledge),
    max 0 (((cellsU s.knowledge).card : Int) - min 1 (minC s.knowledge)),
    min 1 (minC s.knowledge)⟩,
    ⟨min_le_left _ _, le_max_left _ _, le_max_right _ _⟩, ?_⟩
  intro sen hs
  refine ⟨mem_cellsU hs, ?_, ?_⟩
  · have h1 := le_maxC hs
    have h2 : (sen.cells.card : Int) ≤ ((cellsU s.knowledge).card : Int) := by
      exact_mod_cast Finset.card_le_card (mem_cellsU hs)
    have h3 : (0:Int) ≤
        max 0 (((cellsU s.knowledge).card : Int) - min 1 (minC s.knowledge)) :=
      le_max_left _ _
    have h4 : maxC s.knowledge ≤ max 0 (maxC s.knowledge) := le_max_right _ _
    have h5 : (0:Int) ≤ ((cellsU s.knowledge).card : Int) - (sen.cells.card : Int) := by
      omega
    have h6 := mul_nonneg h3 h5
    show sen.count ≤ max 0 (maxC s.knowledge) +
      max 0 (((cellsU s.knowledge).card : Int) - min 1 (minC s.knowledge)) *
        (((cellsU s.knowledge).card : Int) - (sen.cells.card : Int))
    linarith
  · have h1 := minC_le hs
    have h2 : (0:Int) ≤ ((s.mines ∩ cellsU s.knowledge).card : Int) := by positivity
    have h3 : min 1 (minC s.knowledge) ≤ minC s.knowledge := min_le_right _ _
    show min 1 (minC s.knowledge) - ((s.mines ∩ cellsU s.knowledge).card : Int) ≤ sen.count
    omega

/-- The predicate `Good` holds for a fresh AI state. -/
theorem good_init (h w : Int) : Good (AIState.init h w) := by
  intro sen hs
  exact absurd hs (List.not_mem_nil sen)

/-- The predicate `Good` is preserved by steps 1–3 of `add_knowledge`. -/
theorem Good.addKnowledgePre {s : AIState} (hG : Good s) (cell : Cell) (count : Int) :
    Good (s.addKnowledgePre cell count) := by
  have hG2 : Good (AIState.mark_safe { s with moves_made := insert cell s.moves_made } cell) := by
    intro sen hsen c hc
    simp only [AIState.mark_safe, List.mem_map] at hsen
    obtain ⟨t, ht, rfl⟩ := hsen
    rw [Sentence.mark_safe_eq] at hc
    simp only [Finset.mem_erase] at hc
    intro hmem
    rcases Finset.mem_union.mp hmem with hm | hsf
    · exact hG t ht c hc.2 (Finset.mem_union_left _ hm)
    · rcases Finset.mem_insert.mp hsf with rfl | hsf'
      · exact hc.1 rfl
      · exact hG t ht c hc.2 (Finset.mem_union_right _ hsf')
  simp only [AIState.addKnowledgePre]
  split_ifs with hne
  · intro sen hsen c hc
    rcases List.mem_append.mp hsen with hsen' | hsen'
    · exact hG2 sen hsen' c hc
    · rw [List.mem_singleton] at hsen'
      subst hsen'
      simp only [AIState.newCells, List.mem_toFinset, List.mem_filter] at hc
      obtain ⟨-, hpred⟩ := hc
      have hp := of_decide_eq_true hpred
      intro hmem
      rcases Finset.mem_union.mp hmem with hm | hsf
      · exact hp.2.2.2.1 hm
      · exact hp.2.2.2.2 hsf
  · exact hG2

end KB

namespace KB

/-- Every `add_knowledge` call from a `Good` state returns, with a `Good`
result. -/
theorem addKnowledge_total (s : AIState) (cell : Cell) (count : Int) (hG : Good s) :
    ∃ fuel s', AIState.addKnowledge fuel s cell count = some s' ∧ Good s' := by
  have hGpre := hG.addKnowledgePre cell count
  obtain ⟨cst, hok, hBv⟩ := exists_consts (s.addKnowledgePre cell count)
  obtain ⟨fuel, s', hloop, hG'⟩ := fixpointLoop_total cst hok _ hGpre hBv
  exact ⟨fuel, s', hloop, hG'⟩

/-- Any sequence of `add_knowledge` calls from a `Good` state returns once
given enough fuel. -/
theorem runSeq_total : ∀ (calls : List (Cell × Int)) (s : AIState), Good s →
    ∃ f0 s', Good s' ∧ ∀ f, f0 ≤ f → AIState.runSeq f s calls = some s' := by
  intro calls
  induction calls with
  | nil => intro s hG; exact ⟨0, s, hG, fun f _ => rfl⟩
  | cons p rest ih =>
    obtain ⟨c, n⟩ := p
    intro s hG
    obtain ⟨f1, s1, hak, hG1⟩ := addKnowledge_total s c n hG
    obtain ⟨f0, s', hG', hrest⟩ := ih s1 hG1
    refine ⟨max f1 f0, s', hG', fun f hf => ?_⟩
    show (match AIState.addKnowledge f s c n with
      | none => none
      | some s2 => AIState.runSeq f s2 rest) = some s'
    have hak' : AIState.addKnowledge f s c n = some s1 :=
      fixpointLoop_mono f1 f _ s1 hak (le_trans (le_max_left _ _) hf)
    rw [hak']
    exact hrest f (le_trans (le_max_right _ _) hf)

end KB

/-- C6: `add_knowledge` always terminates.  For every board height and
width and every sequence of calls (in particular those with board-valid
reported counts), some fuel bound makes the embedded run — whose `while`
loop is reproduced pass for pass — return: each continued round of the
fixpoint loop either marks a new universe cell, discards an empty
sentence, or inserts a sentence never seen before into the finite
universe of bounded sentences, so only finitely many passes occur. -/
theorem claim_C6_termination (h w : Int) (calls : List (Cell × Int)) :
    ∃ fuel, (AIState.runSeq fuel (AIState.init h w) calls).isSome = true := by
  obtain ⟨f0, s', hG', hrun⟩ := KB.runSeq_total calls (AIState.init h w) (KB.good_init h w)
  refine ⟨f0, ?_⟩
  rw [hrun f0 (le_refl f0)]
  rfl
